import Mathlib

/-
Verification of a polyphonic software synthesizer engine (Rust, one source
file).  The embedding below translates the synthesis core faithfully:

* `f32` values are modelled as exact rationals (`ℚ`); the float literals of
  the source are read as the rationals they denote, and `std::f32::consts::PI`
  is the exact rational value of the 32-bit float constant (`pi32`).
* Transcendental / impure primitives (`sin`, `sqrt`, `powf`, `tanh`) have no
  rational closed form; they are abstracted as an explicit dictionary
  `FloatOps` passed to every function that uses them, and the random sample
  used by the Noise waveform is passed in as an argument.
* Wall-clock time (`Instant::now`, `Instant::elapsed`) is modelled by passing
  the current time `now : ℚ` explicitly; `t.elapsed()` becomes `now - t`.
* Code that can panic (slice indexing, `Option::unwrap`, debug-mode integer
  underflow) or produce a non-finite float (division by zero) returns
  `Option _`, with `none` for the panic / poisoned value.
* The `HashMap<u8, Voice>` of voices is modelled as an association list of
  `(note, Voice)` pairs with the usual replace-on-insert semantics.
-/

namespace SynthModel

/-- Exact rational value of the 32-bit float constant `std::f32::consts::PI`
(bit pattern 0x40490FDB). -/
def pi32 : ℚ := 13176795 / 4194304

/-- Truncation toward zero, as used by Rust float-to-integer semantics and by
the `%` operator on floats. -/
def truncQ (q : ℚ) : ℤ := if 0 ≤ q then ⌊q⌋ else ⌈q⌉

/-- Rust `%` on floats: `x - trunc(x / y) * y` (sign follows the dividend). -/
def fmod (x y : ℚ) : ℚ := x - (truncQ (x / y) : ℚ) * y

/-- Guarded division: a float division whose divisor is zero produces a
non-finite value, modelled as `none`. -/
def divChecked (x y : ℚ) : Option ℚ := if y = 0 then none else some (x / y)

/-- Rust `as usize` cast from a float: truncation toward zero, saturating at
zero for negative inputs. -/
def ratToUsize (q : ℚ) : ℕ := (⌊q⌋).toNat

/-- Dictionary of the transcendental float primitives used by the source.
`pow2 e` stands for `2.0f32.powf(e)`. -/
structure FloatOps where
  sin : ℚ → ℚ
  sqrt : ℚ → ℚ
  pow2 : ℚ → ℚ
  tanh : ℚ → ℚ

/-- Identity instantiation of the primitive dictionary, used to build concrete
evaluation points. -/
def idOps : FloatOps := ⟨id, id, id, id⟩

/-- Amplitude envelope state (struct `Envelope`). -/
structure Envelope where
  attack : ℚ
  decay : ℚ
  sustain : ℚ
  release : ℚ
  start_time : Option ℚ
  release_time : Option ℚ
  is_released : Bool
  deriving DecidableEq

/-- Translation of `Envelope::get_amplitude`.  The early `return` taken when
the envelope is released and has a release time is modelled by the
intermediate `Option`; when it is `none` control falls through to the
attack / decay / sustain computation, exactly as in the source. -/
def Envelope.get_amplitude (e : Envelope) (now : ℚ) : ℚ :=
  match e.start_time with
  | none => 0
  | some start_time =>
    let elapsed := now - start_time
    let released : Option ℚ :=
      if e.is_released then
        match e.release_time with
        | some release_time =>
          let release_elapsed := now - release_time
          some (if e.release ≤ release_elapsed then 0
                else e.sustain * (1 - release_elapsed / e.release))
        | none => none
      else none
    match released with
    | some v => v
    | none =>
      if elapsed < e.attack then elapsed / e.attack
      else if elapsed < e.attack + e.decay then
        1 - (1 - e.sustain) * (elapsed - e.attack) / e.decay
      else e.sustain

/-- Frequency envelope state (struct `FrequencyEnvelope`). -/
structure FrequencyEnvelope where
  attack : ℚ
  decay : ℚ
  release : ℚ
  start_time : Option ℚ
  release_time : Option ℚ
  is_released : Bool
  start_freq : ℚ
  peak_freq : ℚ
  sustain_freq : ℚ
  deriving DecidableEq

/-- Translation of `FrequencyEnvelope::get_frequency_multiplier`, with the
same early-return structure as `Envelope.get_amplitude`. -/
def FrequencyEnvelope.get_frequency_multiplier (e : FrequencyEnvelope) (now : ℚ) : ℚ :=
  match e.start_time with
  | none => 1
  | some start_time =>
    let elapsed := now - start_time
    let released : Option ℚ :=
      if e.is_released then
        match e.release_time with
        | some release_time =>
          let release_elapsed := now - release_time
          some (if e.release ≤ release_elapsed then 1
                else
                  let sustain_mult := e.sustain_freq / e.start_freq
                  sustain_mult * (1 - release_elapsed / e.release)
                    + 1 * (release_elapsed / e.release))
        | none => none
      else none
    match released with
    | some v => v
    | none =>
      if elapsed < e.attack then
        let progress := elapsed / e.attack
        let start_mult : ℚ := 1
        let peak_mult := e.peak_freq / e.start_freq
        start_mult + (peak_mult - start_mult) * progress
      else if elapsed < e.attack + e.decay then
        let progress := (elapsed - e.attack) / e.decay
        let peak_mult := e.peak_freq / e.start_freq
        let sustain_mult := e.sustain_freq / e.start_freq
        peak_mult + (sustain_mult - peak_mult) * progress
      else e.sustain_freq / e.start_freq

/-- Waveform selection (enum `Waveform`); harmonic weights are the 16-entry
array of the source. -/
inductive Waveform where
  | Sine
  | Square
  | Sawtooth
  | Triangle
  | Noise
  | Additive (num_harmonics : ℕ) (harmonic_weights : List ℚ)
  deriving DecidableEq

/-- Per-note oscillator state (struct `Voice`); `harmonic_phases` is the
16-entry array of phase accumulators. -/
structure Voice where
  frequency : ℚ
  waveform : Waveform
  envelope : Envelope
  frequency_envelope : FrequencyEnvelope
  phase : ℚ
  pitch_bend : ℚ
  harmonic_phases : List ℚ
  deriving DecidableEq

/-- Body of the additive-synthesis loop of `Voice::get_sample` for one
enumerated harmonic `(h, weight)`: harmonics at or above Nyquist are skipped,
the others advance their own phase accumulator and contribute to the sum. -/
def additiveStep (ops : FloatOps) (sr current_frequency : ℚ)
    (acc : ℚ × List ℚ) (hw : ℕ × ℚ) : ℚ × List ℚ :=
  let harmonic_freq := current_frequency * ((hw.1 + 1 : ℕ) : ℚ)
  if harmonic_freq < sr / 2 then
    let harmonic_phase_step := harmonic_freq * 2 * pi32 / sr
    let ph := fmod (acc.2.getD hw.1 0 + harmonic_phase_step) (2 * pi32)
    (acc.1 + hw.2 * ops.sin ph, acc.2.set hw.1 ph)
  else acc

/-- Additive-synthesis sum of `Voice::get_sample`: fold of `additiveStep`
over the first `min num_harmonics 16` enumerated harmonic weights. -/
def additiveSum (ops : FloatOps) (sr current_frequency : ℚ)
    (num_harmonics : ℕ) (harmonic_weights : List ℚ)
    (harmonic_phases : List ℚ) : ℚ × List ℚ :=
  ((harmonic_weights.enum).take (min num_harmonics 16)).foldl
    (additiveStep ops sr current_frequency) (0, harmonic_phases)

/-- Translation of `Voice::get_sample`.  Returns the produced sample and the
updated voice.  `rnd` is the value drawn by `rand::random` (only used by the
Noise waveform); `now` is the current wall-clock time. -/
def Voice.get_sample (ops : FloatOps) (rnd now sr : ℚ) (v : Voice) : ℚ × Voice :=
  let base_frequency := v.frequency * v.pitch_bend
  let freq_multiplier := v.frequency_envelope.get_frequency_multiplier now
  let current_frequency := base_frequency * freq_multiplier
  let phase_step := current_frequency * 2 * pi32 / sr
  let amplitude := v.envelope.get_amplitude now
  let p : ℚ × Voice :=
    match v.waveform with
    | Waveform.Sine => (ops.sin v.phase, v)
    | Waveform.Square => (if 0 ≤ ops.sin v.phase then 1 else -1, v)
    | Waveform.Sawtooth => (fmod v.phase (2 * pi32) / (2 * pi32) * 2 - 1, v)
    | Waveform.Triangle =>
      let normalized_phase := fmod v.phase (2 * pi32) / (2 * pi32)
      (if normalized_phase < 1/2 then normalized_phase * 4 - 1
       else 3 - normalized_phase * 4, v)
    | Waveform.Noise => (rnd * 2 - 1, v)
    | Waveform.Additive num_harmonics harmonic_weights =>
      let r := additiveSum ops sr current_frequency num_harmonics
        harmonic_weights v.harmonic_phases
      (r.1 / ops.sqrt ((num_harmonics : ℕ) : ℚ), { v with harmonic_phases := r.2 })
  (p.1 * amplitude, { p.2 with phase := fmod (v.phase + phase_step) (2 * pi32) })

/-- Effective oscillator frequency of a voice at time `now`:
`frequency * pitch_bend * frequency_envelope.get_frequency_multiplier()`. -/
def Voice.effFreq (now : ℚ) (v : Voice) : ℚ :=
  v.frequency * v.pitch_bend * v.frequency_envelope.get_frequency_multiplier now

/-- Per-sample phase increment of a voice: `2π * effective_frequency / sr`,
written in the evaluation order of the source. -/
def Voice.phaseStep (now sr : ℚ) (v : Voice) : ℚ :=
  v.frequency * v.pitch_bend * v.frequency_envelope.get_frequency_multiplier now
    * 2 * pi32 / sr

/-- Delay effect state (struct `DelayParameters`). -/
structure DelayParameters where
  buffer : List ℚ
  position : ℕ
  delay_time : ℚ
  feedback : ℚ
  mix : ℚ
  deriving DecidableEq

/-- Filter effect state (struct `FilterParameters`). -/
structure FilterParameters where
  cutoff : ℚ
  resonance : ℚ
  mix : ℚ
  prev_input : ℚ
  prev_output : ℚ
  deriving DecidableEq

/-- Tremolo effect state (struct `TremoloParameters`). -/
structure TremoloParameters where
  rate : ℚ
  depth : ℚ
  mix : ℚ
  phase : ℚ
  deriving DecidableEq

/-- Chorus effect state (struct `ChorusParameters`). -/
structure ChorusParameters where
  buffers : List (List ℚ)
  positions : List ℕ
  rates : List ℚ
  depths : List ℚ
  phases : List ℚ
  mix : ℚ
  deriving DecidableEq

/-- Reverb effect state (struct `ReverbParameters`). -/
structure ReverbParameters where
  comb_filters : List (List ℚ)
  comb_positions : List ℕ
  allpass_filters : List (List ℚ)
  allpass_positions : List ℕ
  feedback : ℚ
  mix : ℚ
  deriving DecidableEq

/-- Ring modulator effect state (struct `RingModParameters`). -/
structure RingModParameters where
  frequency : ℚ
  phase : ℚ
  mix : ℚ
  deriving DecidableEq

/-- Delay arm of `Effect::process`: read at the cursor, write
`input + delayed * feedback` at the cursor, advance the cursor modulo the
buffer length, output the dry / wet blend of the delayed sample. -/
def delayProcess (p : DelayParameters) (sample : ℚ) : Option (ℚ × DelayParameters) :=
  match p.buffer[p.position]? with
  | none => none
  | some delayed =>
    some (sample * (1 - p.mix) + delayed * p.mix,
      { p with buffer := p.buffer.set p.position (sample + delayed * p.feedback),
               position := (p.position + 1) % p.buffer.length })

/-- Filter arm of `Effect::process`: one-pole low-pass recursion
`out = prev_output + alpha * (sample - prev_output)`; the stored `resonance`
is never read. -/
def filterProcess (p : FilterParameters) (sample sr : ℚ) : Option (ℚ × FilterParameters) :=
  match divChecked (2 * pi32 * p.cutoff) sr with
  | none => none
  | some normalized_cutoff =>
    match divChecked normalized_cutoff (1 + normalized_cutoff) with
    | none => none
    | some alpha =>
      let processed := p.prev_output + alpha * (sample - p.prev_output)
      some (sample * (1 - p.mix) + processed * p.mix,
        { p with prev_output := processed, prev_input := sample })

/-- Tremolo arm of `Effect::process`. -/
def tremoloProcess (ops : FloatOps) (p : TremoloParameters) (sample sr : ℚ) :
    Option (ℚ × TremoloParameters) :=
  match divChecked p.rate sr with
  | none => none
  | some dphase =>
    let modulation := (1 + ops.sin (p.phase * 2 * pi32) * p.depth) * (1/2)
    let processed := sample * modulation
    some (sample * (1 - p.mix) + processed * p.mix,
      { p with phase := fmod (p.phase + dphase) 1 })

/-- Chorus per-voice loop of `Effect::process`: advances the LFO phase,
computes the modulated delay length, reads the delayed sample, writes the
input at the cursor and advances it.  Index panics (position out of range,
`usize` underflow, empty buffer) give `none`; tails of the parameter lists
longer than `buffers` are preserved untouched, shorter ones panic. -/
def chorusLoop (ops : FloatOps) (sr sample : ℚ) :
    List (List ℚ) → List ℕ → List ℚ → List ℚ → List ℚ → ℚ →
    Option (ℚ × List (List ℚ) × List ℕ × List ℚ)
  | [], poss, _, _, phs, acc => some (acc, [], poss, phs)
  | _ :: _, [], _, _, _, _ => none
  | _ :: _, _ :: _, [], _, _, _ => none
  | _ :: _, _ :: _, _ :: _, [], _, _ => none
  | _ :: _, _ :: _, _ :: _, _ :: _, [], _ => none
  | buf :: bufs, pos :: poss, rate :: rs, depth :: ds, ph :: phs, acc =>
    match divChecked rate sr with
    | none => none
    | some dph =>
      let ph1 := fmod (ph + dph) 1
      let mod_delay := (1 + ops.sin (ph1 * 2 * pi32) * depth) * (1/2)
      if buf.length = 0 then none
      else
        let delay_samples := ratToUsize (mod_delay * ((buf.length - 1 : ℕ) : ℚ))
        if pos + buf.length < delay_samples then none
        else
          let read_pos := (pos + buf.length - delay_samples) % buf.length
          match buf[read_pos]? with
          | none => none
          | some delayed =>
            if pos < buf.length then
              match chorusLoop ops sr sample bufs poss rs ds phs (acc + delayed) with
              | none => none
              | some (out, bufs1, poss1, phs1) =>
                some (out, buf.set pos sample :: bufs1,
                  (pos + 1) % buf.length :: poss1, ph1 :: phs1)
            else none

/-- Chorus arm of `Effect::process`: sum of the per-voice delayed reads,
averaged over the number of chorus voices, then blended. -/
def chorusProcess (ops : FloatOps) (p : ChorusParameters) (sample sr : ℚ) :
    Option (ℚ × ChorusParameters) :=
  match chorusLoop ops sr sample p.buffers p.positions p.rates p.depths p.phases 0 with
  | none => none
  | some (out, bufs, poss, phs) =>
    match divChecked out ((p.buffers.length : ℕ) : ℚ) with
    | none => none
    | some avg =>
      some (sample * (1 - p.mix) + avg * p.mix,
        { p with buffers := bufs, positions := poss, phases := phs })

/-- Parallel comb-filter loop of the Reverb arm: accumulates the delayed
samples and writes `input + delayed * feedback` back at each cursor. -/
def combLoop (feedback sample : ℚ) :
    List (List ℚ) → List ℕ → ℚ → Option (ℚ × List (List ℚ) × List ℕ)
  | [], poss, acc => some (acc, [], poss)
  | _ :: _, [], _ => none
  | buf :: bufs, pos :: poss, acc =>
    match buf[pos]? with
    | none => none
    | some delayed =>
      match combLoop feedback sample bufs poss (acc + delayed) with
      | none => none
      | some (out, bufs1, poss1) =>
        some (out, buf.set pos (sample + delayed * feedback) :: bufs1,
          (pos + 1) % buf.length :: poss1)

/-- Series allpass-filter loop of the Reverb arm: output `delayed - input`,
write `input + delayed * 0.5`. -/
def allpassLoop : List (List ℚ) → List ℕ → ℚ → Option (ℚ × List (List ℚ) × List ℕ)
  | [], poss, cur => some (cur, [], poss)
  | _ :: _, [], _ => none
  | buf :: bufs, pos :: poss, cur =>
    match buf[pos]? with
    | none => none
    | some delayed =>
      match allpassLoop bufs poss (delayed - cur) with
      | none => none
      | some (out, bufs1, poss1) =>
        some (out, buf.set pos (cur + delayed * (1/2)) :: bufs1,
          (pos + 1) % buf.length :: poss1)

/-- Reverb arm of `Effect::process` (Schroeder topology): parallel comb
filters summed then divided by the number of comb filters — with no
emptiness check — feeding the series allpass filters, then blended. -/
def reverbProcess (p : ReverbParameters) (sample : ℚ) : Option (ℚ × ReverbParameters) :=
  match combLoop p.feedback sample p.comb_filters p.comb_positions 0 with
  | none => none
  | some (comb_sum, combs, cpos) =>
    match divChecked comb_sum ((p.comb_filters.length : ℕ) : ℚ) with
    | none => none
    | some comb_output =>
      match allpassLoop p.allpass_filters p.allpass_positions comb_output with
      | none => none
      | some (allpass_output, aps, appos) =>
        some (sample * (1 - p.mix) + allpass_output * p.mix,
          { p with comb_filters := combs, comb_positions := cpos,
                   allpass_filters := aps, allpass_positions := appos })

/-- Ring modulator arm of `Effect::process`. -/
def ringModProcess (ops : FloatOps) (p : RingModParameters) (sample sr : ℚ) :
    Option (ℚ × RingModParameters) :=
  match divChecked p.frequency sr with
  | none => none
  | some dphase =>
    let modulator := ops.sin (p.phase * 2 * pi32)
    let processed := sample * modulator
    some (sample * (1 - p.mix) + processed * p.mix,
      { p with phase := fmod (p.phase + dphase) 1 })

/-- Effect variants (enum `Effect`). -/
inductive Effect where
  | Delay (params : DelayParameters)
  | Distortion (drive : ℚ) (mix : ℚ)
  | Filter (params : FilterParameters)
  | Tremolo (params : TremoloParameters)
  | Chorus (params : ChorusParameters)
  | Reverb (params : ReverbParameters)
  | RingMod (params : RingModParameters)
  deriving DecidableEq

/-- Translation of `Effect::process`: one sample through one effect stage,
returning the output sample and the updated stage. -/
def Effect.process (ops : FloatOps) : Effect → ℚ → ℚ → Option (ℚ × Effect)
  | Effect.Delay p, sample, _ =>
    (delayProcess p sample).map (fun r => (r.1, Effect.Delay r.2))
  | Effect.Distortion drive mix, sample, _ =>
    let processed := ops.tanh (sample * drive)
    some (sample * (1 - mix) + processed * mix, Effect.Distortion drive mix)
  | Effect.Filter p, sample, sr =>
    (filterProcess p sample sr).map (fun r => (r.1, Effect.Filter r.2))
  | Effect.Tremolo p, sample, sr =>
    (tremoloProcess ops p sample sr).map (fun r => (r.1, Effect.Tremolo r.2))
  | Effect.Chorus p, sample, sr =>
    (chorusProcess ops p sample sr).map (fun r => (r.1, Effect.Chorus r.2))
  | Effect.Reverb p, sample, _ =>
    (reverbProcess p sample).map (fun r => (r.1, Effect.Reverb r.2))
  | Effect.RingMod p, sample, sr =>
    (ringModProcess ops p sample sr).map (fun r => (r.1, Effect.RingMod r.2))

/-- Translation of `Effect::reset`: zero all internal buffers and phases,
keeping configured parameters. -/
def Effect.reset : Effect → Effect
  | Effect.Delay p =>
    Effect.Delay { p with buffer := List.replicate p.buffer.length 0, position := 0 }
  | Effect.Distortion drive mix => Effect.Distortion drive mix
  | Effect.Filter p => Effect.Filter { p with prev_input := 0, prev_output := 0 }
  | Effect.Tremolo p => Effect.Tremolo { p with phase := 0 }
  | Effect.Chorus p =>
    Effect.Chorus { p with buffers := p.buffers.map (fun b => List.replicate b.length 0),
                           positions := p.positions.map (fun _ => 0),
                           phases := p.phases.map (fun _ => 0) }
  | Effect.Reverb p =>
    Effect.Reverb { p with
      comb_filters := p.comb_filters.map (fun b => List.replicate b.length 0),
      allpass_filters := p.allpass_filters.map (fun b => List.replicate b.length 0),
      comb_positions := p.comb_positions.map (fun _ => 0),
      allpass_positions := p.allpass_positions.map (fun _ => 0) }
  | Effect.RingMod p => Effect.RingMod { p with phase := 0 }

/-- Translation of `Effect::new_delay`: circular buffer of
`(sample_rate * delay_time) as usize` zeros, floored to length at least 1. -/
def Effect.new_delay (sample_rate delay_time feedback mix : ℚ) : Effect :=
  let buffer_size := ratToUsize (sample_rate * delay_time)
  Effect.Delay
    { buffer := List.replicate (max buffer_size 1) 0
      position := 0
      delay_time := delay_time
      feedback := feedback
      mix := mix }

/-- Translation of `Effect::new_reverb`: four comb filters with fixed delay
ratios scaled by `room_size`, two allpass filters, feedback 0.84. -/
def Effect.new_reverb (sample_rate room_size mix : ℚ) : Effect :=
  let comb_delays : List ℚ :=
    [297/10000 * room_size, 371/10000 * room_size, 411/10000 * room_size,
     437/10000 * room_size]
  let allpass_delays : List ℚ := [50/10000, 17/10000]
  Effect.Reverb
    { comb_filters := comb_delays.map
        (fun d => List.replicate (ratToUsize (sample_rate * d)) 0)
      comb_positions := comb_delays.map (fun _ => 0)
      allpass_filters := allpass_delays.map
        (fun d => List.replicate (ratToUsize (sample_rate * d)) 0)
      allpass_positions := allpass_delays.map (fun _ => 0)
      feedback := 84/100
      mix := mix }

/-- Ordered effect pipeline (struct `EffectStack`). -/
structure EffectStack where
  effects : List Effect
  deriving DecidableEq

/-- Fold of one sample through a list of effect stages in order. -/
def processEffects (ops : FloatOps) : List Effect → ℚ → ℚ → Option (ℚ × List Effect)
  | [], sample, _ => some (sample, [])
  | e :: rest, sample, sr =>
    match Effect.process ops e sample sr with
    | none => none
    | some (s1, e1) =>
      match processEffects ops rest s1 sr with
      | none => none
      | some (s2, rest1) => some (s2, e1 :: rest1)

/-- Translation of `EffectStack::process`. -/
def EffectStack.process (ops : FloatOps) (st : EffectStack) (sample sr : ℚ) :
    Option (ℚ × EffectStack) :=
  (processEffects ops st.effects sample sr).map (fun r => (r.1, { effects := r.2 }))

/-- Synthesizer state (struct `Synth`); the `HashMap<u8, Voice>` is modelled
as an association list keyed by note number. -/
structure Synth where
  voices : List (ℕ × Voice)
  sample_rate : ℚ
  pitch_bend : ℚ
  waveform : Waveform
  attack : ℚ
  decay : ℚ
  sustain : ℚ
  release : ℚ
  freq_attack : ℚ
  freq_decay : ℚ
  freq_release : ℚ
  freq_start_mult : ℚ
  freq_peak_mult : ℚ
  freq_sustain_mult : ℚ
  num_harmonics : ℕ
  harmonic_weights : List ℚ
  effects : EffectStack

/-- HashMap-style insert on the association list: replace the value at an
existing key, otherwise append the new entry. -/
def insertVoice (note : ℕ) (v : Voice) : List (ℕ × Voice) → List (ℕ × Voice)
  | [] => [(note, v)]
  | (k, w) :: rest =>
    if k = note then (note, v) :: rest else (k, w) :: insertVoice note v rest

/-- HashMap-style in-place update of the entry at `note`, if present. -/
def updateVoice (note : ℕ) (f : Voice → Voice) : List (ℕ × Voice) → List (ℕ × Voice)
  | [] => []
  | (k, w) :: rest =>
    if k = note then (k, f w) :: rest else (k, w) :: updateVoice note f rest

/-- Guard of `Synth::note_on`: a voice for this note exists and its envelope
is not yet released. -/
def stillHeld (note : ℕ) (vs : List (ℕ × Voice)) : Bool :=
  match List.lookup note vs with
  | some v => !v.envelope.is_released
  | none => false

/-- Voice constructed by the body of `Synth::note_on`: frequency
`440 * 2^(note/12)`, waveform and global parameters snapshotted, both
envelope clocks started at `now`, phase accumulators zeroed. -/
def Synth.mkVoice (ops : FloatOps) (now : ℚ) (sy : Synth) (note : ℕ) : Voice :=
  let frequency := 440 * ops.pow2 ((note : ℚ) / 12)
  let waveform :=
    match sy.waveform with
    | Waveform.Additive _ _ => Waveform.Additive sy.num_harmonics sy.harmonic_weights
    | other => other
  { frequency := frequency
    waveform := waveform
    envelope :=
      { attack := sy.attack, decay := sy.decay, sustain := sy.sustain,
        release := sy.release, start_time := some now, release_time := none,
        is_released := false }
    frequency_envelope :=
      { attack := sy.freq_attack, decay := sy.freq_decay,
        release := sy.freq_release, start_time := some now,
        release_time := none, is_released := false,
        start_freq := frequency, peak_freq := frequency * sy.freq_peak_mult,
        sustain_freq := frequency * sy.freq_sustain_mult }
    phase := 0
    pitch_bend := sy.pitch_bend
    harmonic_phases := List.replicate 16 0 }

/-- Translation of `Synth::note_on`: no-op when a still-held voice exists for
the note, otherwise insert a freshly constructed voice. -/
def Synth.note_on (ops : FloatOps) (now : ℚ) (sy : Synth) (note : ℕ) : Synth :=
  if stillHeld note sy.voices then sy
  else { sy with voices := insertVoice note (sy.mkVoice ops now note) sy.voices }

/-- Release both envelopes of a voice at time `now` (body of
`Synth::note_off`). -/
def releaseVoice (now : ℚ) (v : Voice) : Voice :=
  { v with
    envelope := { v.envelope with is_released := true, release_time := some now }
    frequency_envelope :=
      { v.frequency_envelope with is_released := true, release_time := some now } }

/-- Translation of `Synth::note_off`. -/
def Synth.note_off (now : ℚ) (sy : Synth) (note : ℕ) : Synth :=
  { sy with voices := updateVoice note (releaseVoice now) sy.voices }

/-- Retain predicate of `Synth::get_next_sample`:
`!is_released || release_time.unwrap().elapsed() < release`.  The `unwrap`
of a missing release time is the panic case, modelled as `none`. -/
def voiceAlive (now : ℚ) (v : Voice) : Option Bool :=
  if v.envelope.is_released then
    match v.envelope.release_time with
    | none => none
    | some release_time => some (decide (now - release_time < v.envelope.release))
  else some true

/-- Voice-pruning `retain` of `Synth::get_next_sample`. -/
def pruneVoices (now : ℚ) : List (ℕ × Voice) → Option (List (ℕ × Voice))
  | [] => some []
  | kv :: rest =>
    match voiceAlive now kv.2 with
    | none => none
    | some keep =>
      match pruneVoices now rest with
      | none => none
      | some rest1 => some (if keep then kv :: rest1 else rest1)

/-- Sampling pass over the live voices: sample each voice (consuming one
random value per voice position) and return the sum of the samples together
with the updated voices. -/
def sampleVoices (ops : FloatOps) (rnd : ℕ → ℚ) (now sr : ℚ) :
    List (ℕ × Voice) → ℚ × List (ℕ × Voice)
  | [] => (0, [])
  | kv :: rest =>
    let r := Voice.get_sample ops (rnd 0) now sr kv.2
    let rest1 := sampleVoices ops (fun i => rnd (i + 1)) now sr rest
    (r.1 + rest1.1, (kv.1, r.2) :: rest1.2)

/-- Mixing step of `Synth::get_next_sample`: 0 when the voice set is empty
(the explicit emptiness check of the source), otherwise the voice-sample sum
divided by the voice count. -/
def mixVoices (ops : FloatOps) (rnd : ℕ → ℚ) (now sr : ℚ)
    (vs : List (ℕ × Voice)) : Option (ℚ × List (ℕ × Voice)) :=
  if vs.isEmpty then some (0, vs)
  else
    let r := sampleVoices ops rnd now sr vs
    (divChecked r.1 ((vs.length : ℕ) : ℚ)).map (fun m => (m, r.2))

/-- Translation of `Synth::get_next_sample`: prune released-and-expired
voices, mix the survivors (0 if none), then run the mixed sample through the
effect stack. -/
def Synth.get_next_sample (ops : FloatOps) (rnd : ℕ → ℚ) (now : ℚ) (sy : Synth) :
    Option (ℚ × Synth) :=
  (pruneVoices now sy.voices).bind (fun pruned =>
    (mixVoices ops rnd now sy.sample_rate pruned).bind (fun rv =>
      (EffectStack.process ops sy.effects rv.1 sy.sample_rate).map (fun oe =>
        (oe.1, { sy with voices := rv.2, effects := oe.2 }))))

/-- Voice state after `n` calls of `Voice::get_sample`, sampling at times
`times 0, times 1, ...` with random draws `rnd 0, rnd 1, ...`. -/
def voiceRun (ops : FloatOps) (rnd times : ℕ → ℚ) (sr : ℚ) (v : Voice) : ℕ → Voice
  | 0 => v
  | n + 1 => (Voice.get_sample ops (rnd n) (times n) sr (voiceRun ops rnd times sr v n)).2

/-- Sample produced by the `n`-th call of `Voice::get_sample` in the run. -/
def voiceOut (ops : FloatOps) (rnd times : ℕ → ℚ) (sr : ℚ) (v : Voice) (n : ℕ) : ℚ :=
  (Voice.get_sample ops (rnd n) (times n) sr (voiceRun ops rnd times sr v n)).1

/-- Reference phase sequence of a voice: starts at the voice phase and
advances by the per-sample increment, wrapped modulo 2π, once per sample. -/
def basePhase (times : ℕ → ℚ) (sr : ℚ) (v : Voice) : ℕ → ℚ
  | 0 => v.phase
  | n + 1 =>
    fmod (basePhase times sr v n + Voice.effFreq (times n) v * 2 * pi32 / sr) (2 * pi32)

/-- Delay stage exactly as produced by construction or reset: a zeroed
buffer of length `L`, cursor 0, with `feedback = 0` and `mix = 1`. -/
def freshDelay (L : ℕ) (delay_time : ℚ) : DelayParameters :=
  { buffer := List.replicate L 0
    position := 0
    delay_time := delay_time
    feedback := 0
    mix := 1 }

/-- Delay state after processing the inputs `x 0, ..., x (n-1)`. -/
def delayIter (x : ℕ → ℚ) (p : DelayParameters) : ℕ → Option DelayParameters
  | 0 => some p
  | n + 1 =>
    match delayIter x p n with
    | none => none
    | some q => (delayProcess q (x n)).map Prod.snd

/-- Output of the delay stage at step `n` of the run on inputs `x`. -/
def delayOut (x : ℕ → ℚ) (p : DelayParameters) (n : ℕ) : Option ℚ :=
  match delayIter x p n with
  | none => none
  | some q => (delayProcess q (x n)).map Prod.fst

/-- Content of slot `j` of the delay buffer after `n` steps of the run on
inputs `x` (feedback 0): the most recent input written to that slot, or 0 if
the slot has not been written yet. -/
def histVal (x : ℕ → ℚ) (L n j : ℕ) : ℚ :=
  if j < n % L then x (n - n % L + j)
  else if L ≤ n then x (n - L + (j - n % L))
  else 0

/-- Overwrite the `resonance` field of a Filter stage, leaving every other
effect untouched. -/
def setResonance (r : ℚ) : Effect → Effect
  | Effect.Filter q => Effect.Filter { q with resonance := r }
  | e => e

/-- Per-voice well-formedness: the release time is set exactly when the
envelope is released, and the start time is set. -/
def VoiceWF (v : Voice) : Prop :=
  v.envelope.release_time.isSome = v.envelope.is_released ∧
    v.envelope.start_time.isSome = true

/-- Synth invariant: every stored voice is well-formed. -/
def SynthWF (sy : Synth) : Prop := ∀ kv ∈ sy.voices, VoiceWF kv.2

instance : DecidablePred VoiceWF := fun v => by unfold VoiceWF; infer_instance

instance : DecidablePred SynthWF := fun sy => by unfold SynthWF; infer_instance

/-- Concrete envelope used to evaluate the amplitude claims: ADSR
(0.1, 0.1, 0.7, 0.3), started at time 0 and released at time 4. -/
def cEnvR : Envelope :=
  { attack := 1/10, decay := 1/10, sustain := 7/10, release := 3/10,
    start_time := some 0, release_time := some 4, is_released := true }

/-- Concrete held envelope: started at time 0, not released, sustain 1 so
that the amplitude at time 2 is exactly 1. -/
def cEnvH : Envelope :=
  { attack := 1, decay := 1, sustain := 1, release := 1,
    start_time := some 0, release_time := none, is_released := false }

/-- Concrete frequency envelope that has not been started: its multiplier
is 1. -/
def cFEnv : FrequencyEnvelope :=
  { attack := 1, decay := 1, release := 1, start_time := none,
    release_time := none, is_released := false,
    start_freq := 1, peak_freq := 2, sustain_freq := 3/2 }

/-- Concrete sine voice at frequency 1 (well below the Nyquist frequency 4 of
the sample rate 8 used in the evaluations). -/
def cVoiceS : Voice :=
  { frequency := 1, waveform := Waveform.Sine, envelope := cEnvH,
    frequency_envelope := cFEnv, phase := 0, pitch_bend := 1,
    harmonic_phases := List.replicate 16 0 }

/-- The voice `cVoiceS` with the waveform replaced by a one-harmonic additive
waveform of weight 1 — otherwise identical. -/
def cVoiceA : Voice :=
  { cVoiceS with waveform := Waveform.Additive 1 (1 :: List.replicate 15 0) }

/-- Concrete sine voice with frequency 0, used as an evaluation point where
the phase increment is 0. -/
def cVoiceZ : Voice :=
  { cVoiceS with frequency := 0 }

/-- Concrete released voice (release time set), satisfying `VoiceWF`. -/
def cVoiceR : Voice :=
  { cVoiceS with envelope := cEnvR }

/-- Concrete synthesizer holding the held voice `cVoiceS` at note 3. -/
def cSynth : Synth :=
  { voices := [(3, cVoiceS)]
    sample_rate := 8
    pitch_bend := 1
    waveform := Waveform.Sine
    attack := 1/10, decay := 1/10, sustain := 7/10, release := 3/10
    freq_attack := 1/10, freq_decay := 1/5, freq_release := 3/10
    freq_start_mult := 1, freq_peak_mult := 2, freq_sustain_mult := 3/2
    num_harmonics := 8
    harmonic_weights := List.replicate 16 1
    effects := { effects := [] } }

/-- The concrete synthesizer with the voice at note 3 already released. -/
def cSynthR : Synth := { cSynth with voices := [(3, cVoiceR)] }

/-- Range of the float remainder: for a non-negative dividend and a positive
divisor the result lies in `[0, y)`. -/
theorem fmod_bounds (x y : ℚ) (hx : 0 ≤ x) (hy : 0 < y) :
    0 ≤ fmod x y ∧ fmod x y < y := by
  have hxy : 0 ≤ x / y := div_nonneg hx hy.le
  have hfr : fmod x y = Int.fract (x / y) * y := by
    rw [fmod, truncQ, if_pos hxy, Int.fract, sub_mul, div_mul_cancel₀ x hy.ne']
  constructor
  · rw [hfr]; exact mul_nonneg (Int.fract_nonneg _) hy.le
  · rw [hfr]
    calc Int.fract (x / y) * y < 1 * y :=
          mul_lt_mul_of_pos_right (Int.fract_lt_one _) hy
      _ = y := one_mul y

/-- C1: `Envelope::get_amplitude` returns 0 before the start time is set;
while not released it ramps linearly from 0 to 1 over `attack` seconds, then
from 1 to `sustain` over the next `decay` seconds, then holds `sustain`;
once released with a release time set it returns
`sustain * (1 - release_elapsed / release)` and exactly 0 whenever
`release_elapsed ≥ release`. -/
theorem claim_C1 (e : Envelope) (now : ℚ) :
    (e.start_time = none → e.get_amplitude now = 0) ∧
    (∀ t0, e.start_time = some t0 → e.is_released = false →
      (now - t0 < e.attack → e.get_amplitude now = (now - t0) / e.attack) ∧
      (e.attack ≤ now - t0 → now - t0 < e.attack + e.decay →
        e.get_amplitude now = 1 - (1 - e.sustain) * (now - t0 - e.attack) / e.decay) ∧
      (e.attack ≤ now - t0 → e.attack + e.decay ≤ now - t0 →
        e.get_amplitude now = e.sustain)) ∧
    (∀ t1, e.start_time.isSome = true → e.is_released = true →
      e.release_time = some t1 →
      (now - t1 < e.release →
        e.get_amplitude now = e.sustain * (1 - (now - t1) / e.release)) ∧
      (e.release ≤ now - t1 → e.get_amplitude now = 0)) := by
  refine ⟨?_, ?_, ?_⟩
  · intro h; simp [Envelope.get_amplitude, h]
  · intro t0 hst hrel
    refine ⟨?_, ?_, ?_⟩
    · intro hlt
      simp [Envelope.get_amplitude, hst, hrel, hlt]
    · intro hge hlt
      simp [Envelope.get_amplitude, hst, hrel, hlt, not_lt.mpr hge]
    · intro hge1 hge2
      simp [Envelope.get_amplitude, hst, hrel, not_lt.mpr hge1, not_lt.mpr hge2]
  · intro t1 hst hrel hrt
    obtain ⟨t0, ht0⟩ := Option.isSome_iff_exists.mp hst
    constructor
    · intro hlt
      simp [Envelope.get_amplitude, ht0, hrel, hrt, not_le.mpr hlt]
    · intro hge
      simp [Envelope.get_amplitude, ht0, hrel, hrt, hge]

/-- Witness for C1: the concrete released envelope `cEnvR` at time 5, one
second past its release time and beyond its 0.3-second release duration,
yields exactly 0. -/
theorem claim_C1_witness :
    cEnvR.release ≤ (5:ℚ) - 4 ∧ cEnvR.get_amplitude 5 = 0 :=
  ⟨by norm_num [cEnvR],
   ((claim_C1 cEnvR 5).2.2 4 rfl rfl rfl).2 (by norm_num [cEnvR])⟩

/-- C7: an effect stack with zero effects is the identity: processing any
sample returns it unchanged together with the unchanged (empty) stack. -/
theorem claim_C7 (ops : FloatOps) (x sr : ℚ) :
    EffectStack.process ops { effects := [] } x sr = some (x, { effects := [] }) := rfl

/-- C9: the `resonance` field of a Filter effect is inert — processing a
filter state with the resonance overwritten yields the same output and the
same successor state except for the stored resonance value. -/
theorem claim_C9 (ops : FloatOps) (p : FilterParameters) (r x sr : ℚ) :
    Effect.process ops (Effect.Filter { p with resonance := r }) x sr
      = (Effect.process ops (Effect.Filter p) x sr).map
          (fun o => (o.1, setResonance r o.2)) := by
  simp only [Effect.process, filterProcess]
  rcases h1 : divChecked (2 * pi32 * p.cutoff) sr with _ | nc
  · rfl
  · rcases h2 : divChecked nc (1 + nc) with _ | alpha
    · simp [h2]
    · simp [h2, setResonance]

/-- C6: `note_on` for a note whose voice exists and is not released leaves
the whole synthesizer state unchanged. -/
theorem claim_C6 (ops : FloatOps) (now : ℚ) (sy : Synth) (note : ℕ) (v : Voice)
    (hv : List.lookup note sy.voices = some v)
    (hr : v.envelope.is_released = false) :
    sy.note_on ops now note = sy := by
  simp [Synth.note_on, stillHeld, hv, hr]

/-- Witness for C6: re-triggering the held note 3 of the concrete
synthesizer is a no-op. -/
theorem claim_C6_witness :
    List.lookup 3 cSynth.voices = some cVoiceS ∧
      cVoiceS.envelope.is_released = false ∧
      cSynth.note_on idOps 2 3 = cSynth :=
  ⟨rfl, rfl, claim_C6 idOps 2 cSynth 3 cVoiceS rfl rfl⟩

/-- C8: every call of `Voice::get_sample` — for every waveform variant,
including Noise and Additive — replaces the base phase by the old phase plus
`2π * effective_frequency / sample_rate`, wrapped modulo 2π; when the old
phase and the increment are non-negative the new phase lies in `[0, 2π)`. -/
theorem claim_C8 (ops : FloatOps) (rnd now sr : ℚ) (v : Voice)
    (h0 : 0 ≤ v.phase) (hstep : 0 ≤ Voice.phaseStep now sr v) :
    (Voice.get_sample ops rnd now sr v).2.phase
        = fmod (v.phase + Voice.phaseStep now sr v) (2 * pi32) ∧
      0 ≤ (Voice.get_sample ops rnd now sr v).2.phase ∧
      (Voice.get_sample ops rnd now sr v).2.phase < 2 * pi32 := by
  have h2pi : (0:ℚ) < 2 * pi32 := by norm_num [pi32]
  have hx : 0 ≤ v.phase + Voice.phaseStep now sr v := add_nonneg h0 hstep
  have hb := fmod_bounds _ _ hx h2pi
  have hphase : (Voice.get_sample ops rnd now sr v).2.phase
      = fmod (v.phase + Voice.phaseStep now sr v) (2 * pi32) := rfl
  exact ⟨hphase, hphase ▸ hb.1, hphase ▸ hb.2⟩

/-- Witness for C8: the concrete voice `cVoiceZ` (frequency 0, phase 0) has
non-negative phase and increment, and its phase after one sample is again
non-negative. -/
theorem claim_C8_witness :
    (0:ℚ) ≤ cVoiceZ.phase ∧ 0 ≤ Voice.phaseStep 0 8 cVoiceZ ∧
      0 ≤ (Voice.get_sample idOps 0 0 8 cVoiceZ).2.phase :=
  ⟨by norm_num [cVoiceZ, cVoiceS],
   by simp [Voice.phaseStep, cVoiceZ, cVoiceS],
   (claim_C8 idOps 0 0 8 cVoiceZ (by norm_num [cVoiceZ, cVoiceS])
      (by simp [Voice.phaseStep, cVoiceZ, cVoiceS])).2.1⟩

/-- Counterexample for C2: the Reverb arm of `Effect::process` has no
emptiness check — on a state with an empty comb-filter set the comb average
divides by zero (`0.0 / 0.0`, a NaN in the source, `none` here). -/
theorem claim_C2_counterexample :
    Effect.process idOps
      (Effect.Reverb
        { comb_filters := [], comb_positions := [], allpass_filters := [],
          allpass_positions := [], feedback := 84/100, mix := 1/2 }) 1 10
      = none := by
  simp [Effect.process, reverbProcess, combLoop, divChecked]

/-- C2 (amended): the voice-mix division of `Synth::get_next_sample` is
guarded by an explicit emptiness check and therefore never divides by zero,
for every voice list; the Reverb arm has no such check and instead relies on
`new_reverb` always constructing exactly 4 comb filters and 2 allpass
filters. -/
theorem claim_C2 (ops : FloatOps) (rnd : ℕ → ℚ) (now sr rs mx : ℚ)
    (vs : List (ℕ × Voice)) :
    (mixVoices ops rnd now sr vs).isSome = true ∧
    ∃ p : ReverbParameters, Effect.new_reverb sr rs mx = Effect.Reverb p ∧
      p.comb_filters.length = 4 ∧ p.allpass_filters.length = 2 := by
  constructor
  · cases vs with
    | nil => rfl
    | cons kv rest =>
      have hne : ((rest.length : ℚ) + 1) ≠ 0 := by positivity
      simp [mixVoices, divChecked, hne]
  · exact ⟨_, rfl, rfl, rfl⟩

/-- Lookup after a HashMap-style insert finds the inserted voice. -/
theorem lookup_insertVoice (note : ℕ) (v : Voice) (l : List (ℕ × Voice)) :
    List.lookup note (insertVoice note v l) = some v := by
  induction l with
  | nil => simp [insertVoice, List.lookup]
  | cons kw rest ih =>
    obtain ⟨k, w⟩ := kw
    by_cases h : k = note
    · simp [insertVoice, h, List.lookup]
    · have hne : (note == k) = false := by
        simp [Ne.symm h]
      simp [insertVoice, h, List.lookup, hne, ih]

/-- C10: `note_on` for a note whose voice exists but is already released
does not no-op — it replaces the stored voice with a freshly constructed
one (phase 0, both envelope clocks started now, globals snapshotted),
touching no other synthesizer field. -/
theorem claim_C10 (ops : FloatOps) (now : ℚ) (sy : Synth) (note : ℕ) (v : Voice)
    (hv : List.lookup note sy.voices = some v)
    (hr : v.envelope.is_released = true) :
    sy.note_on ops now note
        = { sy with voices := insertVoice note (sy.mkVoice ops now note) sy.voices } ∧
      List.lookup note (sy.note_on ops now note).voices
        = some (sy.mkVoice ops now note) ∧
      (sy.mkVoice ops now note).phase = 0 ∧
      (sy.mkVoice ops now note).envelope.start_time = some now ∧
      (sy.mkVoice ops now note).envelope.is_released = false ∧
      (sy.mkVoice ops now note).frequency_envelope.start_time = some now := by
  have hstep : sy.note_on ops now note
      = { sy with voices := insertVoice note (sy.mkVoice ops now note) sy.voices } := by
    simp [Synth.note_on, stillHeld, hv, hr]
  refine ⟨hstep, ?_, rfl, rfl, rfl, rfl⟩
  rw [hstep]
  exact lookup_insertVoice note (sy.mkVoice ops now note) sy.voices

/-- Witness for C10: re-triggering the released note 3 of `cSynthR` installs
the freshly constructed voice. -/
theorem claim_C10_witness :
    List.lookup 3 cSynthR.voices = some cVoiceR ∧
      cVoiceR.envelope.is_released = true ∧
      List.lookup 3 (cSynthR.note_on idOps 6 3).voices
        = some (cSynthR.mkVoice idOps 6 3) :=
  ⟨rfl, rfl, (claim_C10 idOps 6 cSynthR 3 cVoiceR rfl rfl).2.1⟩

/-- Sampling a voice leaves its amplitude envelope untouched. -/
theorem get_sample_envelope (ops : FloatOps) (rnd now sr : ℚ) (v : Voice) :
    (Voice.get_sample ops rnd now sr v).2.envelope = v.envelope := by
  cases hv : v.waveform <;> simp [Voice.get_sample, hv]

/-- Membership after a HashMap-style insert: the element is the inserted
pair or was already present. -/
theorem mem_insertVoice {kv : ℕ × Voice} {note : ℕ} {v : Voice}
    {l : List (ℕ × Voice)} (h : kv ∈ insertVoice note v l) :
    kv = (note, v) ∨ kv ∈ l := by
  induction l with
  | nil => simpa [insertVoice] using h
  | cons kw rest ih =>
    obtain ⟨k, w⟩ := kw
    by_cases hk : k = note
    · simp only [insertVoice, if_pos hk, List.mem_cons] at h
      rcases h with h | h
      · exact Or.inl h
      · exact Or.inr (List.mem_cons_of_mem _ h)
    · simp only [insertVoice, if_neg hk, List.mem_cons] at h
      rcases h with h | h
      · exact Or.inr (by simp [h])
      · rcases ih h with h1 | h1
        · exact Or.inl h1
        · exact Or.inr (List.mem_cons_of_mem _ h1)

/-- Membership after a HashMap-style update: every element either was
already present or is the updated image of a present element with the same
key. -/
theorem mem_updateVoice {kv : ℕ × Voice} {note : ℕ} {f : Voice → Voice}
    {l : List (ℕ × Voice)} (h : kv ∈ updateVoice note f l) :
    ∃ kw ∈ l, kv.1 = kw.1 ∧ (kv.2 = kw.2 ∨ kv.2 = f kw.2) := by
  induction l with
  | nil => simp [updateVoice] at h
  | cons kw rest ih =>
    obtain ⟨k, w⟩ := kw
    by_cases hk : k = note
    · simp only [updateVoice, if_pos hk, List.mem_cons] at h
      rcases h with h | h
      · exact ⟨(k, w), by simp, by simp [h], Or.inr (by simp [h])⟩
      · exact ⟨kv, List.mem_cons_of_mem _ h, rfl, Or.inl rfl⟩
    · simp only [updateVoice, if_neg hk, List.mem_cons] at h
      rcases h with h | h
      · exact ⟨(k, w), by simp, by simp [h], Or.inl (by simp [h])⟩
      · obtain ⟨kw1, hkw1, he⟩ := ih h
        exact ⟨kw1, List.mem_cons_of_mem _ hkw1, he⟩

/-- Under the voice invariant the retain predicate of the pruning pass never
hits the `unwrap` panic. -/
theorem pruneVoices_isSome (now : ℚ) (l : List (ℕ × Voice))
    (h : ∀ kv ∈ l, VoiceWF kv.2) : (pruneVoices now l).isSome = true := by
  induction l with
  | nil => rfl
  | cons kv rest ih =>
    have hwf := h kv (by simp)
    have hrest := ih (fun kw hkw => h kw (List.mem_cons_of_mem _ hkw))
    obtain ⟨rest1, hr⟩ := Option.isSome_iff_exists.mp hrest
    have halive : (voiceAlive now kv.2).isSome = true := by
      cases hb : kv.2.envelope.is_released with
      | false => simp [voiceAlive, hb]
      | true =>
        have hsome : kv.2.envelope.release_time.isSome = true := by
          rw [hwf.1, hb]
        obtain ⟨rt, hrt⟩ := Option.isSome_iff_exists.mp hsome
        simp [voiceAlive, hb, hrt]
    obtain ⟨b, hbs⟩ := Option.isSome_iff_exists.mp halive
    unfold pruneVoices
    rw [hbs, hr]
    cases b <;> rfl

/-- The pruning pass only keeps elements of the input list. -/
theorem mem_pruneVoices (now : ℚ) :
    ∀ (l l1 : List (ℕ × Voice)), pruneVoices now l = some l1 →
      ∀ kv ∈ l1, kv ∈ l := by
  intro l
  induction l with
  | nil =>
    intro l1 h kv hkv
    simp only [pruneVoices, Option.some.injEq] at h
    rw [← h] at hkv
    simp at hkv
  | cons kw rest ih =>
    intro l1 h kv hkv
    unfold pruneVoices at h
    rcases ha : voiceAlive now kw.2 with _ | keep <;> rw [ha] at h
    · simp at h
    · rcases hp : pruneVoices now rest with _ | rest1 <;> rw [hp] at h
      · simp at h
      · have hl1 := (Option.some.inj h).symm
        cases keep with
        | false =>
          rw [if_neg (by simp)] at hl1
          rw [hl1] at hkv
          exact List.mem_cons_of_mem _ (ih rest1 hp kv hkv)
        | true =>
          rw [if_pos rfl] at hl1
          rw [hl1] at hkv
          rcases List.mem_cons.mp hkv with h1 | h1
          · simp [h1]
          · exact List.mem_cons_of_mem _ (ih rest1 hp kv h1)

/-- The sampling pass preserves keys and envelopes of the sampled voices. -/
theorem mem_sampleVoices (ops : FloatOps) :
    ∀ (rnd : ℕ → ℚ) (now sr : ℚ) (l : List (ℕ × Voice)),
      ∀ kv1 ∈ (sampleVoices ops rnd now sr l).2,
        ∃ kv ∈ l, kv1.1 = kv.1 ∧ kv1.2.envelope = kv.2.envelope := by
  intro rnd now sr l
  induction l generalizing rnd with
  | nil => intro kv1 h; simp [sampleVoices] at h
  | cons kw rest ih =>
    intro kv1 h
    simp only [sampleVoices, List.mem_cons] at h
    rcases h with h | h
    · refine ⟨kw, by simp, by simp [h], ?_⟩
      rw [h]
      exact get_sample_envelope ops (rnd 0) now sr kw.2
    · obtain ⟨kv, hkv, he⟩ := ih (fun i => rnd (i + 1)) kv1 h
      exact ⟨kv, List.mem_cons_of_mem _ hkv, he⟩

/-- The mixing step preserves keys and envelopes of the mixed voices. -/
theorem mem_mixVoices (ops : FloatOps) (rnd : ℕ → ℚ) (now sr : ℚ)
    (vs : List (ℕ × Voice)) (ret : ℚ) (vs1 : List (ℕ × Voice))
    (h : mixVoices ops rnd now sr vs = some (ret, vs1)) :
    ∀ kv1 ∈ vs1, ∃ kv ∈ vs, kv1.1 = kv.1 ∧ kv1.2.envelope = kv.2.envelope := by
  unfold mixVoices at h
  split at h
  · have h2 := (Prod.mk.injEq .. ▸ Option.some.inj h).2
    intro kv1 hkv1
    rw [← h2] at hkv1
    exact ⟨kv1, hkv1, rfl, rfl⟩
  · simp only [Option.map_eq_some', Prod.mk.injEq] at h
    obtain ⟨m, -, -, h2⟩ := h
    rw [← h2]
    exact mem_sampleVoices ops rnd now sr vs

/-- C5: the invariant "release time set exactly when released, start time
set" holds for every voice created by `note_on` and is preserved by
`note_on`, `note_off` and `get_next_sample`; under it the pruning pass of
`get_next_sample` never panics on its `unwrap`, and neither `note_off` nor
`get_next_sample` ever resets a surviving voice's envelope start time. -/
theorem claim_C5 (ops : FloatOps) (rnd : ℕ → ℚ) (now : ℚ) (note : ℕ) (sy : Synth)
    (hwf : SynthWF sy) :
    SynthWF (sy.note_on ops now note) ∧
    SynthWF (sy.note_off now note) ∧
    (pruneVoices now sy.voices).isSome = true ∧
    (∀ out sy1, sy.get_next_sample ops rnd now = some (out, sy1) →
      SynthWF sy1 ∧
      ∀ kv1 ∈ sy1.voices, ∃ kv ∈ sy.voices, kv1.1 = kv.1 ∧
        kv1.2.envelope.start_time = kv.2.envelope.start_time) ∧
    (∀ kv1 ∈ (sy.note_off now note).voices, ∃ kv ∈ sy.voices,
      kv1.1 = kv.1 ∧ kv1.2.envelope.start_time = kv.2.envelope.start_time) := by
  refine ⟨?_, ?_, pruneVoices_isSome now sy.voices hwf, ?_, ?_⟩
  · unfold Synth.note_on
    split
    · exact hwf
    · intro kv hkv
      rcases mem_insertVoice hkv with h | h
      · rw [h]
        exact ⟨rfl, rfl⟩
      · exact hwf kv h
  · intro kv hkv
    obtain ⟨kw, hkw, -, he⟩ := mem_updateVoice hkv
    rcases he with he | he
    · rw [he]; exact hwf kw hkw
    · rw [he]
      exact ⟨rfl, (hwf kw hkw).2⟩
  · intro out sy1 h
    unfold Synth.get_next_sample at h
    rw [Option.bind_eq_some] at h
    obtain ⟨pruned, hp, h⟩ := h
    rw [Option.bind_eq_some] at h
    obtain ⟨rv, hm, h⟩ := h
    rw [Option.map_eq_some'] at h
    obtain ⟨oe, -, heq⟩ := h
    injection heq with h1 h2
    have hmem : ∀ kv1 ∈ rv.2, ∃ kv ∈ sy.voices, kv1.1 = kv.1 ∧
        kv1.2.envelope = kv.2.envelope := by
      intro kv1 hkv1
      obtain ⟨kv, hkv, hk, he1⟩ :=
        mem_mixVoices ops rnd now sy.sample_rate pruned rv.1 rv.2 (by rw [hm]) kv1 hkv1
      exact ⟨kv, mem_pruneVoices now sy.voices pruned hp kv hkv, hk, he1⟩
    constructor
    · intro kv1 hkv1
      rw [← h2] at hkv1
      obtain ⟨kv, hkv, -, he1⟩ := hmem kv1 hkv1
      have := hwf kv hkv
      unfold VoiceWF
      rw [he1]
      exact this
    · intro kv1 hkv1
      rw [← h2] at hkv1
      obtain ⟨kv, hkv, hk, he1⟩ := hmem kv1 hkv1
      exact ⟨kv, hkv, hk, by rw [he1]⟩
  · intro kv1 hkv1
    obtain ⟨kw, hkw, hk, he⟩ := mem_updateVoice hkv1
    rcases he with he | he
    · exact ⟨kw, hkw, hk, by rw [he]⟩
    · exact ⟨kw, hkw, hk, by rw [he]; rfl⟩

/-- Witness for C5: the concrete synthesizer `cSynth` with one held voice
satisfies the invariant, and its pruning pass succeeds. -/
theorem claim_C5_witness :
    SynthWF cSynth ∧ (pruneVoices 7 cSynth.voices).isSome = true :=
  ⟨by decide, (claim_C5 idOps (fun _ => 0) 7 3 cSynth (by decide)).2.2.1⟩

/-- Successor of a cursor value modulo the buffer length. -/
theorem succ_mod_eq (L n : ℕ) (hL : 1 ≤ L) :
    (n + 1) % L = if n % L + 1 = L then 0 else n % L + 1 := by
  have hd := Nat.div_add_mod n L
  by_cases h : n % L + 1 = L
  · rw [if_pos h]
    have he : n + 1 = L * (n / L + 1) := by rw [Nat.mul_succ]; omega
    rw [he, Nat.mul_mod_right]
  · rw [if_neg h]
    have hr : n % L < L := Nat.mod_lt _ hL
    have he : n + 1 = L * (n / L) + (n % L + 1) := by omega
    rw [he, Nat.mul_add_mod]
    exact Nat.mod_eq_of_lt (by omega)

/-- Stepping the cursor before or after reduction modulo the length agrees. -/
theorem succ_mod_left (L n : ℕ) : (n % L + 1) % L = (n + 1) % L := by
  conv_rhs => rw [Nat.add_mod]
  by_cases h1 : L = 1
  · subst h1; simp [Nat.mod_one]
  · by_cases h0 : L = 0
    · subst h0; simp
    · have h : 1 % L = 1 := Nat.mod_eq_of_lt (by omega)
      rw [h]

/-- One write step of the delay history: slot `n % L` now holds `x n`, every
other slot is unchanged. -/
theorem histVal_step (x : ℕ → ℚ) (L n j : ℕ) (hL : 1 ≤ L) (hj : j < L) :
    histVal x L (n + 1) j = if j = n % L then x n else histVal x L n j := by
  have hr : n % L < L := Nat.mod_lt _ hL
  have hrn : n % L ≤ n := Nat.mod_le n L
  have hs := succ_mod_eq L n hL
  by_cases hcase : n % L + 1 = L
  · rw [if_pos hcase] at hs
    have hLn : L ≤ n + 1 := by omega
    have hLHS : histVal x L (n + 1) j = x (n + 1 - L + j) := by
      unfold histVal
      rw [hs]
      simp [hLn]
    rw [hLHS]
    by_cases hjr : j = n % L
    · rw [if_pos hjr]; congr 1; omega
    · rw [if_neg hjr]
      have hjlt : j < n % L := by omega
      unfold histVal
      rw [if_pos hjlt]
      congr 1
      omega
  · rw [if_neg hcase] at hs
    by_cases hjr : j = n % L
    · rw [if_pos hjr]
      unfold histVal
      rw [hs, if_pos (by omega)]
      congr 1
      omega
    · rw [if_neg hjr]
      by_cases hjlt : j < n % L
      · unfold histVal
        rw [hs, if_pos (by omega), if_pos hjlt]
        congr 1
        omega
      · unfold histVal
        rw [hs, if_neg (by omega), if_neg hjlt]
        by_cases hLn : L ≤ n
        · rw [if_pos (by omega), if_pos hLn]
          congr 1
          omega
        · have hnn : n % L = n := Nat.mod_eq_of_lt (by omega)
          rw [if_neg (by omega), if_neg hLn]

/-- State of a fresh feedback-free, fully-wet delay stage after `n` steps:
cursor at `n % L` and buffer slots given by `histVal`. -/
theorem delayIter_fresh (x : ℕ → ℚ) (L : ℕ) (dt : ℚ) (hL : 1 ≤ L) :
    ∀ n, delayIter x (freshDelay L dt) n =
      some { buffer := (List.range L).map (histVal x L n), position := n % L,
             delay_time := dt, feedback := 0, mix := 1 } := by
  intro n
  induction n with
  | zero =>
    have hf : ∀ j, histVal x L 0 j = 0 := by
      intro j
      unfold histVal
      rw [Nat.zero_mod, if_neg (by omega), if_neg (by omega)]
    have hbuf : (List.range L).map (histVal x L 0) = List.replicate L 0 := by
      calc (List.range L).map (histVal x L 0)
          = (List.range L).map (fun _ => (0:ℚ)) :=
            List.map_congr_left (fun j _ => hf j)
        _ = List.replicate L 0 := by
            rw [List.map_const']; simp
    simp [delayIter, freshDelay, hbuf]
  | succ n ih =>
    have hlen : ((List.range L).map (histVal x L n)).length = L := by simp
    have hread : ((List.range L).map (histVal x L n))[n % L]?
        = some (histVal x L n (n % L)) := by
      have h1 : (List.range L)[n % L]? = some (n % L) :=
        List.getElem?_range (Nat.mod_lt _ hL)
      rw [List.getElem?_map, h1]
      rfl
    have hset : ((List.range L).map (histVal x L n)).set (n % L) (x n)
        = (List.range L).map (histVal x L (n + 1)) := by
      apply List.ext_getElem?
      intro j
      by_cases hj : j < L
      · have hr1 : (List.range L)[j]? = some j := List.getElem?_range hj
        by_cases hje : j = n % L
        · subst hje
          rw [List.getElem?_set_self', List.getElem?_map, hr1,
            List.getElem?_map, hr1]
          simp [histVal_step x L n _ hL hj]
        · rw [List.getElem?_set_ne (fun h => hje h.symm), List.getElem?_map, hr1,
            List.getElem?_map, hr1]
          simp [histVal_step x L n j hL hj, hje]
      · have hr1 : (List.range L)[j]? = none := by
          simp [List.getElem?_eq_none_iff]
          omega
        have hne : n % L ≠ j := by
          have : n % L < L := Nat.mod_lt _ hL
          omega
        rw [List.getElem?_set_ne hne, List.getElem?_map, hr1, List.getElem?_map, hr1]
        rfl
    simp only [delayIter, ih]
    unfold delayProcess
    simp only [hread, hlen, Option.map_some', mul_zero, add_zero, hset,
      succ_mod_left]

/-- C4: a Delay stage with `mix = 1`, `feedback = 0` and a freshly zeroed
buffer of length `L ≥ 1` outputs 0 for the first `L` samples and thereafter
reproduces the input delayed by exactly `L` samples (the read at the cursor
precedes the write and the cursor advance); construction floors the buffer
length to at least 1, and reset zeroes the buffer and cursor. -/
theorem claim_C4 (x : ℕ → ℚ) (L : ℕ) (dt sr : ℚ) (n : ℕ) :
    (1 ≤ L → delayOut x (freshDelay L dt) n
      = some (if n < L then 0 else x (n - L))) ∧
    Effect.new_delay sr dt 0 1
      = Effect.Delay (freshDelay (max (ratToUsize (sr * dt)) 1) dt) ∧
    (∀ p : DelayParameters, Effect.reset (Effect.Delay p)
      = Effect.Delay { p with buffer := List.replicate p.buffer.length 0,
                              position := 0 }) := by
  refine ⟨?_, ?_, fun p => rfl⟩
  · intro hL
    unfold delayOut
    rw [delayIter_fresh x L dt hL n]
    have hread : ((List.range L).map (histVal x L n))[n % L]?
        = some (histVal x L n (n % L)) := by
      have h1 : (List.range L)[n % L]? = some (n % L) :=
        List.getElem?_range (Nat.mod_lt _ hL)
      rw [List.getElem?_map, h1]
      rfl
    unfold delayProcess
    simp only [hread, Option.map_some']
    congr 1
    have hv : histVal x L n (n % L) = if n < L then 0 else x (n - L) := by
      unfold histVal
      rw [if_neg (lt_irrefl _)]
      by_cases hLn : L ≤ n
      · rw [if_pos hLn, if_neg (by omega)]
        congr 1
        omega
      · rw [if_neg hLn, if_pos (by omega)]
    rw [hv]
    ring
  · rfl

/-- Witness for C4: a fresh length-2 delay on the constant input 7 outputs
the delayed input at step 3. -/
theorem claim_C4_witness :
    delayOut (fun _ => (7:ℚ)) (freshDelay 2 0) 3
      = some (if 3 < 2 then 0 else (fun _ => (7:ℚ)) (3 - 2)) :=
  (claim_C4 (fun _ => (7:ℚ)) 2 0 0 3).1 (by decide)

/-- Additive synthesis with `num_harmonics = 1` and leading weight 1: the
loop visits exactly the fundamental, advances its phase accumulator first
and only then samples the sine — one phase step ahead of the base phase. -/
theorem additiveSum_single (ops : FloatOps) (sr cf : ℚ) (wrest rest15 : List ℚ)
    (ph0 : ℚ) (h : cf * ((0 + 1 : ℕ) : ℚ) < sr / 2) :
    additiveSum ops sr cf 1 (1 :: wrest) (ph0 :: rest15)
      = (0 + 1 * ops.sin
            (fmod (ph0 + cf * ((0 + 1 : ℕ) : ℚ) * 2 * pi32 / sr) (2 * pi32)),
         fmod (ph0 + cf * ((0 + 1 : ℕ) : ℚ) * 2 * pi32 / sr) (2 * pi32)
           :: rest15) := by
  have htake : ((1 : ℚ) :: wrest).enum.take (min 1 16) = [(0, (1:ℚ))] := rfl
  unfold additiveSum
  rw [htake]
  simp only [List.foldl_cons, List.foldl_nil, additiveStep, if_pos h]
  rfl

/-- Run invariant for C3: starting from phase 0 and zeroed accumulators, the
sine voice's phase after `n` samples is `basePhase n`, while the companion
one-harmonic additive voice additionally carries `basePhase n` in its first
phase accumulator, which always runs one step ahead at sampling time. -/
theorem voiceRun_sine_additive (ops : FloatOps) (rnd times : ℕ → ℚ) (sr : ℚ)
    (v : Voice) (wrest : List ℚ)
    (hwave : v.waveform = Waveform.Sine)
    (hphase : v.phase = 0)
    (hharm : v.harmonic_phases = List.replicate 16 0)
    (hnyq : ∀ n, Voice.effFreq (times n) v < sr / 2) :
    ∀ n,
      voiceRun ops rnd times sr v n = { v with phase := basePhase times sr v n } ∧
      voiceRun ops rnd times sr
          { v with waveform := Waveform.Additive 1 (1 :: wrest) } n
        = { v with waveform := Waveform.Additive 1 (1 :: wrest),
                   phase := basePhase times sr v n,
                   harmonic_phases :=
                     basePhase times sr v n :: List.replicate 15 0 } := by
  obtain ⟨f, w, env, fenv, ph, pb, hps⟩ := v
  dsimp only at hwave hphase hharm
  subst hwave hphase hharm
  intro n
  induction n with
  | zero => exact ⟨rfl, rfl⟩
  | succ n ih =>
    obtain ⟨ih1, ih2⟩ := ih
    have hcast : ((0 + 1 : ℕ) : ℚ) = 1 := by norm_num
    have hnyq1 : (f * pb * fenv.get_frequency_multiplier (times n))
        * ((0 + 1 : ℕ) : ℚ) < sr / 2 := by
      rw [hcast, mul_one]
      exact hnyq n
    constructor
    · simp only [voiceRun, ih1]
      rfl
    · simp only [voiceRun, ih2, Voice.get_sample]
      rw [additiveSum_single ops sr _ wrest _ _ hnyq1]
      simp [Voice.mk.injEq, basePhase, Voice.effFreq, hcast]

/-- C3 (amended): with one harmonic of weight 1 below Nyquist, the additive
voice is the pure sine oscillator advanced by one sample: at every index `n`
the additive output is `sin` of the phase after `n + 1` advances times the
envelope amplitude, while the otherwise identical sine voice outputs `sin`
of the phase after only `n` advances — the sequences agree only up to this
one-sample phase lead, not index by index. -/
theorem claim_C3 (ops : FloatOps) (rnd times : ℕ → ℚ) (sr : ℚ) (v : Voice)
    (wrest : List ℚ)
    (hwave : v.waveform = Waveform.Sine)
    (hphase : v.phase = 0)
    (hharm : v.harmonic_phases = List.replicate 16 0)
    (hsqrt : ops.sqrt 1 = 1)
    (hnyq : ∀ n, Voice.effFreq (times n) v < sr / 2) :
    ∀ n,
      voiceOut ops rnd times sr
          { v with waveform := Waveform.Additive 1 (1 :: wrest) } n
        = ops.sin (basePhase times sr v (n + 1))
            * v.envelope.get_amplitude (times n) ∧
      voiceOut ops rnd times sr v n
        = ops.sin (basePhase times sr v n) * v.envelope.get_amplitude (times n) := by
  have hrun := voiceRun_sine_additive ops rnd times sr v wrest hwave hphase hharm hnyq
  intro n
  obtain ⟨hS, hA⟩ := hrun n
  have hcast : ((0 + 1 : ℕ) : ℚ) = 1 := by norm_num
  have hcast1 : ((1 : ℕ) : ℚ) = 1 := by norm_num
  have hnyq1 : v.frequency * v.pitch_bend
      * v.frequency_envelope.get_frequency_multiplier (times n)
      * ((0 + 1 : ℕ) : ℚ) < sr / 2 := by
    rw [hcast, mul_one]
    exact hnyq n
  constructor
  · unfold voiceOut
    rw [hA]
    simp only [Voice.get_sample]
    rw [additiveSum_single ops sr _ wrest _ _ hnyq1]
    simp only [hcast, hcast1, mul_one, hsqrt, div_one, zero_add, one_mul,
      basePhase, Voice.effFreq]
  · unfold voiceOut
    rw [hS]
    simp only [Voice.get_sample, hwave]

/-- Witness for C3 (amended): the concrete sine voice `cVoiceZ` and its
one-harmonic additive companion instantiate the one-sample phase-lead
relation at index 0. -/
theorem claim_C3_witness :
    cVoiceZ.waveform = Waveform.Sine ∧
    idOps.sqrt 1 = 1 ∧
    (∀ n : ℕ, Voice.effFreq ((fun _ => (2:ℚ)) n) cVoiceZ < 8 / 2) ∧
    (voiceOut idOps (fun _ => 0) (fun _ => 2) 8
        { cVoiceZ with waveform := Waveform.Additive 1 (1 :: []) } 0
      = idOps.sin (basePhase (fun _ => 2) 8 cVoiceZ (0 + 1))
          * cVoiceZ.envelope.get_amplitude ((fun _ => (2:ℚ)) 0) ∧
      voiceOut idOps (fun _ => 0) (fun _ => 2) 8 cVoiceZ 0
      = idOps.sin (basePhase (fun _ => 2) 8 cVoiceZ 0)
          * cVoiceZ.envelope.get_amplitude ((fun _ => (2:ℚ)) 0)) := by
  have hnyq : ∀ n : ℕ, Voice.effFreq ((fun _ => (2:ℚ)) n) cVoiceZ < 8 / 2 := by
    intro n
    norm_num [Voice.effFreq, cVoiceZ, cVoiceS, cFEnv,
      FrequencyEnvelope.get_frequency_multiplier]
  exact ⟨rfl, rfl, hnyq,
    claim_C3 idOps (fun _ => 0) (fun _ => 2) 8 cVoiceZ [] rfl rfl rfl rfl hnyq 0⟩

/-- Counterexample for C3 as stated: at sample index 0 the one-harmonic
additive voice `cVoiceA` (frequency 1, well below the Nyquist frequency 4)
outputs `sin` of one phase step — `π/4` under the identity primitives —
while the otherwise identical sine voice `cVoiceS` outputs `sin 0 = 0`: the
two output sequences do not agree index by index. -/
theorem claim_C3_counterexample :
    (∀ n : ℕ, Voice.effFreq ((fun _ => (2:ℚ)) n) cVoiceS < 8 / 2) ∧
    voiceOut idOps (fun _ => 0) (fun _ => 2) 8 cVoiceA 0 = pi32 / 4 ∧
    voiceOut idOps (fun _ => 0) (fun _ => 2) 8 cVoiceS 0 = 0 ∧
    (pi32 / 4 : ℚ) ≠ 0 := by
  refine ⟨?_, ?_, ?_, ?_⟩
  · intro n
    norm_num [Voice.effFreq, cVoiceS, cFEnv,
      FrequencyEnvelope.get_frequency_multiplier]
  · have hmult : cFEnv.get_frequency_multiplier 2 = 1 := rfl
    have hamp : cEnvH.get_amplitude 2 = 1 := by
      norm_num [Envelope.get_amplitude, cEnvH]
    have htk : ((1:ℚ) :: List.replicate 15 0).enum.take (min 1 16)
        = [(0, (1:ℚ))] := rfl
    show (Voice.get_sample idOps 0 2 8 cVoiceA).1 = pi32 / 4
    simp only [Voice.get_sample, cVoiceA, cVoiceS, additiveSum, htk,
      List.foldl_cons, List.foldl_nil, additiveStep]
    norm_num [hmult, hamp, fmod, truncQ, pi32, idOps, List.getD]
  · show (Voice.get_sample idOps 0 2 8 cVoiceS).1 = 0
    simp [Voice.get_sample, cVoiceS, idOps]
  · norm_num [pi32]

end SynthModel
